import Mathlib

/-!
Verification of the fat/water suppression pipeline in `FW-Suppression.py`
(two-point Dixon separation of in-phase / out-of-phase MR images).

The source operates on 2D numpy arrays.  We embed an image as its two
dimensions together with the flattened (row-major) list of samples.  Raw
and normalized pixel samples are integers (`ℤ`); intermediate results of
true division (`/ 2`, min-max scaling) are rationals (`ℚ`), modelling the
source's exact float arithmetic.  The IEEE-undefined paths (0/0 producing
NaN, casting NaN to uint8) are modelled by `Option`, with `none` standing
for "no well-defined result".
-/

namespace FWS

/-- A 2D intensity image: dimensions fixed at creation plus the row-major
list of samples, as handled throughout `FW-Suppression.py`. -/
structure Image (α : Type) where
  height : ℕ
  width : ℕ
  data : List α
deriving DecidableEq

/-- A well-formed image carries exactly `height * width` samples. -/
def Image.Wf {α : Type} (img : Image α) : Prop :=
  img.data.length = img.height * img.width

/-- View an integer image as a rational image (the implicit widening that
happens when numpy integer arrays meet float arithmetic). -/
def Image.toRat (img : Image ℤ) : Image ℚ :=
  ⟨img.height, img.width, img.data.map (fun n : ℤ => (n : ℚ))⟩

/-- Error raised by OpenCV arithmetic when the two operand arrays do not
have the same shape (the spec's `DimensionMismatch`). -/
inductive Cv2Error where
  | dimensionMismatch
deriving DecidableEq

/-- OpenCV `saturate_cast<uchar>`: clamp an integer to the uint8 range. -/
def satUint8 (n : ℤ) : ℤ := max 0 (min 255 n)

/-- `cv2.add` on two uint8 images: checks that the shapes agree (raising
its size-mismatch error otherwise) and then adds pixelwise with
saturation at 255. -/
def cv2_add (a b : Image ℤ) : Except Cv2Error (Image ℤ) :=
  if a.height = b.height ∧ a.width = b.width then
    .ok ⟨a.height, a.width, List.zipWith (fun x y => satUint8 (x + y)) a.data b.data⟩
  else .error .dimensionMismatch

/-- `cv2.subtract` on two uint8 images: shape check, then pixelwise
subtraction saturating at 0. -/
def cv2_subtract (a b : Image ℤ) : Except Cv2Error (Image ℤ) :=
  if a.height = b.height ∧ a.width = b.width then
    .ok ⟨a.height, a.width, List.zipWith (fun x y => satUint8 (x - y)) a.data b.data⟩
  else .error .dimensionMismatch

/-- numpy `array / 2`: elementwise true division, yielding floats
(modelled exactly in `ℚ`). -/
def imageDiv2 (img : Image ℤ) : Image ℚ :=
  ⟨img.height, img.width, img.data.map (fun n : ℤ => (n : ℚ) / 2)⟩

/-- `dixon_algorithm` (FW-Suppression.py lines 56-69):
`water = cv2.add(in_phase, out_phase) / 2`,
`fat = cv2.subtract(in_phase, out_phase) / 2`. -/
def dixon_algorithm (a b : Image ℤ) : Except Cv2Error (Image ℚ × Image ℚ) := do
  let s ← cv2_add a b
  let d ← cv2_subtract a b
  return (imageDiv2 s, imageDiv2 d)

/-- `np.min` over the flattened samples (`none` on an empty array, where
numpy raises). -/
def listMin {α : Type} [LinearOrder α] : List α → Option α
  | [] => none
  | x :: xs => some (xs.foldl min x)

/-- `np.max` over the flattened samples. -/
def listMax {α : Type} [LinearOrder α] : List α → Option α
  | [] => none
  | x :: xs => some (xs.foldl max x)

/-- `.astype(np.uint8)` on an in-range float value: C truncation toward
zero. -/
def truncQ (q : ℚ) : ℤ := if q < 0 then -⌊-q⌋ else ⌊q⌋

/-- `np.interp(x, (xl, xr), (yl, yr))` with a single interpolation
interval: clamp outside `[xl, xr]`, linear interpolation inside. -/
def np_interp (x xl xr yl yr : ℚ) : ℚ :=
  if x ≤ xl then yl
  else if xr ≤ x then yr
  else yl + (yr - yl) * (x - xl) / (xr - xl)

/-- `min_max_normalization` (FW-Suppression.py lines 38-52):
`normalized = (image - min) / (max - min)` followed by
`np.interp(normalized, (normalized.min(), normalized.max()), (0, 255))`
and `.astype(np.uint8)`.  The source divides by `max - min` without any
guard: on a constant image this is 0/0, which numpy turns into NaN, and
the subsequent uint8 cast of NaN is platform-undefined — that path is
modelled as `none`. -/
def min_max_normalization (img : Image ℚ) : Option (Image ℤ) :=
  match listMin img.data, listMax img.data with
  | some mn, some mx =>
    if mx = mn then none
    else
      let normalized := img.data.map (fun v => (v - mn) / (mx - mn))
      match listMin normalized, listMax normalized with
      | some nmn, some nmx =>
        some ⟨img.height, img.width, normalized.map (fun t => truncQ (np_interp t nmn nmx 0 255))⟩
      | _, _ => none
  | _, _ => none

/-- The 256-bin intensity histogram `cv2.equalizeHist` builds over a uint8
image: `hist k` counts the pixels of value `k`. -/
def hist (img : Image ℤ) (k : ℕ) : ℕ := img.data.count (k : ℤ)

/-- The running `sum` of the `cv2.equalizeHist` lut loop when it has
processed bins `i0+1 .. v`: the histogram mass strictly above the first
nonzero bin and at most `v`. -/
def cdfFrom (img : Image ℤ) (i0 : ℕ) (v : ℤ) : ℕ :=
  ∑ k in Finset.Ioc i0 255, if (k : ℤ) ≤ v then hist img k else 0

/-- Index of the first nonzero histogram bin (the `while (!hist[i]) ++i;`
scan in `cv2.equalizeHist`). -/
def firstNonzeroBin (img : Image ℤ) : Option ℕ :=
  (List.range 256).find? (fun k => decide (hist img k ≠ 0))

/-- OpenCV `cvRound`: round to the nearest integer, ties to even. -/
def cvRound (q : ℚ) : ℤ :=
  if q - ⌊q⌋ < 1/2 then ⌊q⌋
  else if 1/2 < q - ⌊q⌋ then ⌊q⌋ + 1
  else if ⌊q⌋ % 2 = 0 then ⌊q⌋ else ⌊q⌋ + 1

/-- The `cv2.equalizeHist` lookup table in the non-degenerate case: bin `v`
maps to `saturate_cast<uchar>(sum * scale)` with
`scale = 255 / (total - hist[i0])`. -/
def equalizeLut (img : Image ℤ) (i0 : ℕ) (v : ℤ) : ℤ :=
  satUint8 (cvRound (255 / ((img.data.length : ℚ) - (hist img i0 : ℚ)) * (cdfFrom img i0 v : ℚ)))

/-- The pixel transform applied by `cv2.equalizeHist`: identity when the
histogram is empty, the constant first bin when a single bin holds every
pixel (the `dst.setTo(i)` special case), the lookup table otherwise. -/
def lutOf (img : Image ℤ) (v : ℤ) : ℤ :=
  match firstNonzeroBin img with
  | none => v
  | some i0 => if hist img i0 = img.data.length then (i0 : ℤ) else equalizeLut img i0 v

/-- `cv2.equalizeHist` on a uint8 image: histogram, first nonzero bin,
`dst.setTo(i)` when that bin holds every pixel, lut remap otherwise. -/
def equalizeHist (img : Image ℤ) : Image ℤ :=
  match firstNonzeroBin img with
  | none => img
  | some i0 =>
    if hist img i0 = img.data.length then
      ⟨img.height, img.width, img.data.map (fun _ => (i0 : ℤ))⟩
    else
      ⟨img.height, img.width, img.data.map (equalizeLut img i0)⟩

/-- One branch of `enhance_images` (lines 73-90): min-max normalization
followed by `cv2.equalizeHist`.  `none` when the normalization has no
well-defined result (the NaN path on a constant image). -/
def enhance_image (img : Image ℚ) : Option (Image ℤ) :=
  (min_max_normalization img).map equalizeHist

/-- `enhance_images`: enhance the water image and the fat image. -/
def enhance_images (w f : Image ℚ) : Option (Image ℤ) × Option (Image ℤ) :=
  (enhance_image w, enhance_image f)

/-- `read_dicom_files` (lines 8-34): each of the two `pydicom` reads either
yields a pixel array or fails; a failure of either read makes the function
return `(None, None)`.  The outcome of each read is passed in as an
`Option`. -/
def read_dicom_files (r1 r2 : Option (Image ℤ)) :
    Option (Image ℤ) × Option (Image ℤ) :=
  match r1 with
  | none => (none, none)
  | some a =>
    match r2 with
    | none => (none, none)
    | some b => (some a, some b)

/-- The body of `main` after the reads succeed (lines 155-167): normalize
both raw arrays, blur them (`cv2.GaussianBlur`, passed in as an opaque
pixel transform since no claim depends on its kernel), run the Dixon
separation on both pairs, enhance all four outputs, and hand the six
images to display. -/
def process_study (blur : Image ℤ → Image ℤ) (a b : Image ℤ) :
    Option (Image ℤ × Image ℤ × Image ℤ × Image ℤ × Image ℤ × Image ℤ) := do
  let n1 ← min_max_normalization (Image.toRat a)
  let n2 ← min_max_normalization (Image.toRat b)
  let g1 := blur n1
  let g2 := blur n2
  let wf ← (dixon_algorithm n1 n2).toOption
  let gwf ← (dixon_algorithm g1 g2).toOption
  let ew ← enhance_image wf.1
  let ef ← enhance_image wf.2
  let egw ← enhance_image gwf.1
  let egf ← enhance_image gwf.2
  return (n1, n2, ew, ef, egw, egf)

/-- `main` (lines 143-167): read the two DICOM files; if either slot of
the result is `None`, return immediately; otherwise run the pipeline. -/
def main_pipeline (blur : Image ℤ → Image ℤ) (r1 r2 : Option (Image ℤ)) :
    Option (Image ℤ × Image ℤ × Image ℤ × Image ℤ × Image ℤ × Image ℤ) :=
  match read_dicom_files r1 r2 with
  | (some a, some b) => process_study blur a b
  | _ => none

lemma satUint8_nonneg (n : ℤ) : 0 ≤ satUint8 n := le_max_left _ _

lemma satUint8_le_255 (n : ℤ) : satUint8 n ≤ 255 := by
  simp [satUint8]

lemma satUint8_eq_self {n : ℤ} (h0 : 0 ≤ n) (h255 : n ≤ 255) : satUint8 n = n := by
  simp [satUint8, min_eq_right h255, max_eq_right h0]

lemma satUint8_mono {v w : ℤ} (h : v ≤ w) : satUint8 v ≤ satUint8 w :=
  max_le_max le_rfl (min_le_min le_rfl h)

lemma dixon_eq_ok (a b : Image ℤ) (hh : a.height = b.height) (hw : a.width = b.width) :
    dixon_algorithm a b =
      .ok (imageDiv2 ⟨a.height, a.width, List.zipWith (fun x y => satUint8 (x + y)) a.data b.data⟩,
           imageDiv2 ⟨a.height, a.width, List.zipWith (fun x y => satUint8 (x - y)) a.data b.data⟩) := by
  simp only [dixon_algorithm, cv2_add, cv2_subtract, if_pos (And.intro hh hw)]
  rfl

lemma getD_eq_get {α : Type} (l : List α) (d : α) (i : ℕ) (h : i < l.length) :
    l.getD i d = l.get ⟨i, h⟩ := by
  simp [List.getD_eq_getElem?_getD, List.getElem?_eq_getElem h]

lemma getD_map_zipWith (g : ℤ → ℚ) (f : ℤ → ℤ → ℤ) (l₁ l₂ : List ℤ) (i : ℕ)
    (h₁ : i < l₁.length) (h₂ : i < l₂.length) :
    ((List.zipWith f l₁ l₂).map g).getD i 0 = g (f (l₁.getD i 0) (l₂.getD i 0)) := by
  have hz : i < (List.zipWith f l₁ l₂).length := by
    simpa [List.length_zipWith] using lt_min h₁ h₂
  have hm : i < ((List.zipWith f l₁ l₂).map g).length := by simpa using hz
  rw [getD_eq_get _ _ _ hm, getD_eq_get _ _ _ h₁, getD_eq_get _ _ _ h₂]
  simp [List.getElem_zipWith]

lemma getD_map_int (f : ℤ → ℤ) (l : List ℤ) (i : ℕ) (h : i < l.length) :
    (l.map f).getD i 0 = f (l.getD i 0) := by
  rw [getD_eq_get _ _ _ (by simpa using h), getD_eq_get _ _ _ h]
  simp

lemma mem_zipWith_satUint8 {g : ℤ → ℤ → ℤ} :
    ∀ (l₁ l₂ : List ℤ) (v : ℤ), v ∈ List.zipWith (fun x y => satUint8 (g x y)) l₁ l₂ →
      0 ≤ v ∧ v ≤ 255
  | [], _, v, h => by simp at h
  | _ :: _, [], v, h => by simp at h
  | x :: xs, y :: ys, v, h => by
    rcases List.mem_cons.mp (by simpa using h) with h' | h'
    · exact h' ▸ ⟨satUint8_nonneg _, satUint8_le_255 _⟩
    · exact mem_zipWith_satUint8 xs ys v h'

lemma foldl_min_mem {α : Type} [LinearOrder α] :
    ∀ (xs : List α) (x : α), xs.foldl min x ∈ x :: xs
  | [], _ => by simp
  | y :: ys, x => by
    simp only [List.foldl_cons]
    rcases List.mem_cons.mp (foldl_min_mem ys (min x y)) with h | h
    · rcases min_choice x y with h' | h' <;> rw [h, h'] <;> simp
    · simp [h]

lemma foldl_min_le_init {α : Type} [LinearOrder α] :
    ∀ (xs : List α) (x : α), xs.foldl min x ≤ x
  | [], x => le_refl x
  | y :: ys, x => by
    simp only [List.foldl_cons]
    exact le_trans (foldl_min_le_init ys (min x y)) (min_le_left x y)

lemma foldl_min_le {α : Type} [LinearOrder α] :
    ∀ (xs : List α) (x : α) (a : α), a ∈ x :: xs → xs.foldl min x ≤ a
  | [], x, a, h => by
    simp at h
    simp [h]
  | y :: ys, x, a, h => by
    simp only [List.foldl_cons]
    rcases List.mem_cons.mp h with rfl | h'
    · exact le_trans (foldl_min_le_init ys (min a y)) (min_le_left a y)
    · rcases List.mem_cons.mp h' with rfl | h''
      · exact le_trans (foldl_min_le_init ys (min x a)) (min_le_right x a)
      · exact foldl_min_le ys (min x y) a (List.mem_cons.mpr (Or.inr h''))

lemma foldl_max_mem {α : Type} [LinearOrder α] :
    ∀ (xs : List α) (x : α), xs.foldl max x ∈ x :: xs
  | [], _ => by simp
  | y :: ys, x => by
    simp only [List.foldl_cons]
    rcases List.mem_cons.mp (foldl_max_mem ys (max x y)) with h | h
    · rcases max_choice x y with h' | h' <;> rw [h, h'] <;> simp
    · simp [h]

lemma foldl_max_ge_init {α : Type} [LinearOrder α] :
    ∀ (xs : List α) (x : α), x ≤ xs.foldl max x
  | [], x => le_refl x
  | y :: ys, x => by
    simp only [List.foldl_cons]
    exact le_trans (le_max_left x y) (foldl_max_ge_init ys (max x y))

lemma foldl_max_ge {α : Type} [LinearOrder α] :
    ∀ (xs : List α) (x : α) (a : α), a ∈ x :: xs → a ≤ xs.foldl max x
  | [], x, a, h => by
    simp at h
    simp [h]
  | y :: ys, x, a, h => by
    simp only [List.foldl_cons]
    rcases List.mem_cons.mp h with rfl | h'
    · exact le_trans (le_max_left a y) (foldl_max_ge_init ys (max a y))
    · rcases List.mem_cons.mp h' with rfl | h''
      · exact le_trans (le_max_right x a) (foldl_max_ge_init ys (max x a))
      · exact foldl_max_ge ys (max x y) a (List.mem_cons.mpr (Or.inr h''))

lemma listMin_mem {α : Type} [LinearOrder α] {l : List α} {m : α}
    (h : listMin l = some m) : m ∈ l := by
  cases l with
  | nil => simp [listMin] at h
  | cons x xs =>
    simp only [listMin, Option.some.injEq] at h
    exact h ▸ foldl_min_mem xs x

lemma listMin_le {α : Type} [LinearOrder α] {l : List α} {m : α}
    (h : listMin l = some m) : ∀ a ∈ l, m ≤ a := by
  cases l with
  | nil => simp [listMin] at h
  | cons x xs =>
    simp only [listMin, Option.some.injEq] at h
    exact fun a ha => h ▸ foldl_min_le xs x a ha

lemma listMin_eq_some {α : Type} [LinearOrder α] {l : List α} {m : α}
    (hm : m ∈ l) (hle : ∀ a ∈ l, m ≤ a) : listMin l = some m := by
  cases l with
  | nil => simp at hm
  | cons x xs =>
    simp only [listMin, Option.some.injEq]
    exact le_antisymm (foldl_min_le xs x m hm) (hle _ (foldl_min_mem xs x))

lemma listMax_mem {α : Type} [LinearOrder α] {l : List α} {m : α}
    (h : listMax l = some m) : m ∈ l := by
  cases l with
  | nil => simp [listMax] at h
  | cons x xs =>
    simp only [listMax, Option.some.injEq] at h
    exact h ▸ foldl_max_mem xs x

lemma listMax_ge {α : Type} [LinearOrder α] {l : List α} {m : α}
    (h : listMax l = some m) : ∀ a ∈ l, a ≤ m := by
  cases l with
  | nil => simp [listMax] at h
  | cons x xs =>
    simp only [listMax, Option.some.injEq] at h
    exact fun a ha => h ▸ foldl_max_ge xs x a ha

lemma listMax_eq_some {α : Type} [LinearOrder α] {l : List α} {m : α}
    (hm : m ∈ l) (hge : ∀ a ∈ l, a ≤ m) : listMax l = some m := by
  cases l with
  | nil => simp at hm
  | cons x xs =>
    simp only [listMax, Option.some.injEq]
    exact le_antisymm (hge _ (foldl_max_mem xs x)) (foldl_max_ge xs x m hm)

lemma listMin_le_listMax {α : Type} [LinearOrder α] {l : List α} {mn mx : α}
    (hmn : listMin l = some mn) (hmx : listMax l = some mx) : mn ≤ mx :=
  listMin_le hmn mx (listMax_mem hmx)

lemma truncQ_of_nonneg {q : ℚ} (h : 0 ≤ q) : truncQ q = ⌊q⌋ :=
  if_neg (not_lt.mpr h)

lemma np_interp_unit {t : ℚ} (h0 : 0 ≤ t) (h1 : t ≤ 1) :
    np_interp t 0 1 0 255 = 255 * t := by
  unfold np_interp
  split_ifs with hA hB
  · have ht : t = 0 := le_antisymm hA h0
    simp [ht]
  · have ht : t = 1 := le_antisymm h1 hB
    simp [ht]
  · simp

/-- Closed form of `min_max_normalization` on a non-constant image: the
recomputed minimum and maximum of `(image - min)/(max - min)` are exactly 0
and 1, so the `np.interp` rescaling multiplies by 255 and the uint8 cast
floors the result. -/
lemma min_max_normalization_spec (img : Image ℚ) (mn mx : ℚ)
    (hmn : listMin img.data = some mn) (hmx : listMax img.data = some mx)
    (hne : mx ≠ mn) :
    min_max_normalization img =
      some ⟨img.height, img.width,
            img.data.map (fun v => ⌊(v - mn) / (mx - mn) * 255⌋)⟩ := by
  have hlt : mn < mx := lt_of_le_of_ne (listMin_le_listMax hmn hmx) (fun h => hne h.symm)
  have hd : (0 : ℚ) < mx - mn := by linarith
  have hb0 : ∀ t ∈ img.data.map (fun v => (v - mn) / (mx - mn)), 0 ≤ t := by
    intro t ht
    obtain ⟨v, hv, rfl⟩ := List.mem_map.mp ht
    exact div_nonneg (sub_nonneg.mpr (listMin_le hmn v hv)) hd.le
  have hb1 : ∀ t ∈ img.data.map (fun v => (v - mn) / (mx - mn)), t ≤ 1 := by
    intro t ht
    obtain ⟨v, hv, rfl⟩ := List.mem_map.mp ht
    exact (div_le_one hd).mpr (by linarith [listMax_ge hmx v hv])
  have hnmin : listMin (img.data.map (fun v => (v - mn) / (mx - mn))) = some 0 := by
    refine listMin_eq_some (List.mem_map.mpr ⟨mn, listMin_mem hmn, by simp⟩) hb0
  have hnmax : listMax (img.data.map (fun v => (v - mn) / (mx - mn))) = some 1 := by
    refine listMax_eq_some (List.mem_map.mpr ⟨mx, listMax_mem hmx, div_self hd.ne'⟩) hb1
  simp only [min_max_normalization, hmn, hmx, if_neg hne, hnmin, hnmax,
    Option.some.injEq, List.map_map]
  refine congrArg _ (List.map_congr_left ?_)
  intro v hv
  have h0 : 0 ≤ (v - mn) / (mx - mn) := hb0 _ (List.mem_map.mpr ⟨v, hv, rfl⟩)
  have h1 : (v - mn) / (mx - mn) ≤ 1 := hb1 _ (List.mem_map.mpr ⟨v, hv, rfl⟩)
  simp only [Function.comp]
  rw [np_interp_unit h0 h1, truncQ_of_nonneg (by positivity), mul_comm]

lemma normalize_out_nonneg (img : Image ℚ) (mn mx : ℚ)
    (hmn : listMin img.data = some mn) (hmx : listMax img.data = some mx) :
    ∀ y ∈ img.data.map (fun v => ⌊(v - mn) / (mx - mn) * 255⌋), 0 ≤ y ∧ y ≤ 255 := by
  have hdle : 0 ≤ mx - mn := sub_nonneg.mpr (listMin_le_listMax hmn hmx)
  intro y hy
  obtain ⟨v, hv, rfl⟩ := List.mem_map.mp hy
  rcases eq_or_lt_of_le hdle with hd0 | hd
  · rw [← hd0]
    norm_num
  constructor
  · exact Int.le_floor.mpr (by
      push_cast
      have : 0 ≤ (v - mn) / (mx - mn) :=
        div_nonneg (sub_nonneg.mpr (listMin_le hmn v hv)) hd.le
      positivity)
  · have h1 : (v - mn) / (mx - mn) ≤ 1 :=
      (div_le_one hd).mpr (by linarith [listMax_ge hmx v hv])
    have : (v - mn) / (mx - mn) * 255 ≤ 255 := by nlinarith
    calc ⌊(v - mn) / (mx - mn) * 255⌋ ≤ ⌊(255 : ℚ)⌋ := Int.floor_mono this
    _ = 255 := by norm_num

lemma normalize_out_min (img : Image ℚ) (mn mx : ℚ)
    (hmn : listMin img.data = some mn) (hmx : listMax img.data = some mx)
    (hne : mx ≠ mn) :
    listMin (img.data.map (fun v => ⌊(v - mn) / (mx - mn) * 255⌋)) = some 0 := by
  refine listMin_eq_some (List.mem_map.mpr ⟨mn, listMin_mem hmn, by norm_num⟩)
    (fun y hy => (normalize_out_nonneg img mn mx hmn hmx y hy).1)

lemma normalize_out_max (img : Image ℚ) (mn mx : ℚ)
    (hmn : listMin img.data = some mn) (hmx : listMax img.data = some mx)
    (hne : mx ≠ mn) :
    listMax (img.data.map (fun v => ⌊(v - mn) / (mx - mn) * 255⌋)) = some 255 := by
  have hlt : mn < mx := lt_of_le_of_ne (listMin_le_listMax hmn hmx) (fun h => hne h.symm)
  have hd : (0 : ℚ) < mx - mn := by linarith
  refine listMax_eq_some (List.mem_map.mpr ⟨mx, listMax_mem hmx, ?_⟩)
    (fun y hy => (normalize_out_nonneg img mn mx hmn hmx y hy).2)
  rw [div_self hd.ne']
  norm_num

lemma foldl_min_replicate {α : Type} [LinearOrder α] (c : α) :
    ∀ m, (List.replicate m c).foldl min c = c
  | 0 => rfl
  | m + 1 => by
    simp only [List.replicate_succ, List.foldl_cons, min_self]
    exact foldl_min_replicate c m

lemma foldl_max_replicate {α : Type} [LinearOrder α] (c : α) :
    ∀ m, (List.replicate m c).foldl max c = c
  | 0 => rfl
  | m + 1 => by
    simp only [List.replicate_succ, List.foldl_cons, max_self]
    exact foldl_max_replicate c m

lemma listMin_replicate {α : Type} [LinearOrder α] (c : α) (m : ℕ) :
    listMin (List.replicate (m + 1) c) = some c := by
  simp only [List.replicate_succ, listMin, Option.some.injEq]
  exact foldl_min_replicate c m

lemma listMax_replicate {α : Type} [LinearOrder α] (c : α) (m : ℕ) :
    listMax (List.replicate (m + 1) c) = some c := by
  simp only [List.replicate_succ, listMax, Option.some.injEq]
  exact foldl_max_replicate c m

/-- On a nonempty constant image the source's normalization has no defined
result: `(image - min) / (max - min)` is 0/0. -/
lemma normalize_constant_none (h w : ℕ) (c : ℚ) (m : ℕ) :
    min_max_normalization ⟨h, w, List.replicate (m + 1) c⟩ = none := by
  simp [min_max_normalization, listMin_replicate, listMax_replicate]

/-- Cast of an integer foldl-minimum into `ℚ`. -/
lemma foldl_min_map_cast :
    ∀ (xs : List ℤ) (x : ℤ),
      (xs.map (fun n : ℤ => (n : ℚ))).foldl min ((x : ℤ) : ℚ) = ((xs.foldl min x : ℤ) : ℚ)
  | [], _ => rfl
  | y :: ys, x => by
    simp only [List.map_cons, List.foldl_cons, ← Int.cast_min]
    exact foldl_min_map_cast ys (min x y)

lemma foldl_max_map_cast :
    ∀ (xs : List ℤ) (x : ℤ),
      (xs.map (fun n : ℤ => (n : ℚ))).foldl max ((x : ℤ) : ℚ) = ((xs.foldl max x : ℤ) : ℚ)
  | [], _ => rfl
  | y :: ys, x => by
    simp only [List.map_cons, List.foldl_cons, ← Int.cast_max]
    exact foldl_max_map_cast ys (max x y)

lemma listMin_map_cast {l : List ℤ} {m : ℤ} (h : listMin l = some m) :
    listMin (l.map (fun n : ℤ => (n : ℚ))) = some ((m : ℤ) : ℚ) := by
  cases l with
  | nil => simp [listMin] at h
  | cons x xs =>
    simp only [listMin, Option.some.injEq] at h
    simp only [List.map_cons, listMin, Option.some.injEq]
    rw [foldl_min_map_cast xs x, h]

lemma listMax_map_cast {l : List ℤ} {m : ℤ} (h : listMax l = some m) :
    listMax (l.map (fun n : ℤ => (n : ℚ))) = some ((m : ℤ) : ℚ) := by
  cases l with
  | nil => simp [listMax] at h
  | cons x xs =>
    simp only [listMax, Option.some.injEq] at h
    simp only [List.map_cons, listMax, Option.some.injEq]
    rw [foldl_max_map_cast xs x, h]

lemma equalizeHist_data (img : Image ℤ) :
    (equalizeHist img).data = img.data.map (lutOf img) := by
  rcases hfb : firstNonzeroBin img with _ | i0 <;>
    simp only [equalizeHist, hfb]
  · have h : ∀ v ∈ img.data, lutOf img v = v := fun v _ => by simp [lutOf, hfb]
    exact ((List.map_congr_left h).trans (List.map_id' _)).symm
  · split_ifs with hc
    · exact List.map_congr_left (fun v _ => by simp [lutOf, hfb, hc])
    · exact List.map_congr_left (fun v _ => by simp [lutOf, hfb, hc])

lemma cvRound_bounds (q : ℚ) : ⌊q⌋ ≤ cvRound q ∧ cvRound q ≤ ⌊q⌋ + 1 := by
  unfold cvRound
  split_ifs <;> omega

lemma cvRound_mono {q r : ℚ} (h : q ≤ r) : cvRound q ≤ cvRound r := by
  rcases lt_or_ge ⌊q⌋ ⌊r⌋ with hf | hf
  · calc cvRound q ≤ ⌊q⌋ + 1 := (cvRound_bounds q).2
    _ ≤ ⌊r⌋ := by omega
    _ ≤ cvRound r := (cvRound_bounds r).1
  · have hfe : ⌊q⌋ = ⌊r⌋ := le_antisymm (Int.floor_mono h) hf
    have hfr : q - (⌊r⌋ : ℚ) ≤ r - (⌊r⌋ : ℚ) := by linarith
    unfold cvRound
    rw [hfe]
    split_ifs <;> first | omega | linarith

lemma cdfFrom_mono (img : Image ℤ) (i0 : ℕ) {v w : ℤ} (h : v ≤ w) :
    cdfFrom img i0 v ≤ cdfFrom img i0 w := by
  refine Finset.sum_le_sum ?_
  intro k _
  by_cases hk : (k : ℤ) ≤ v
  · rw [if_pos hk, if_pos (le_trans hk h)]
  · rw [if_neg hk]
    split_ifs <;> simp

lemma equalizeLut_mono (img : Image ℤ) (i0 : ℕ)
    (hden : hist img i0 < img.data.length) {v w : ℤ} (h : v ≤ w) :
    equalizeLut img i0 v ≤ equalizeLut img i0 w := by
  have hpos : (0 : ℚ) < (img.data.length : ℚ) - (hist img i0 : ℚ) := by
    have h' : (hist img i0 : ℚ) < (img.data.length : ℚ) := by exact_mod_cast hden
    linarith
  have hscale : (0 : ℚ) ≤ 255 / ((img.data.length : ℚ) - (hist img i0 : ℚ)) :=
    le_of_lt (div_pos (by norm_num) hpos)
  have hcdf : (cdfFrom img i0 v : ℚ) ≤ (cdfFrom img i0 w : ℚ) := by
    exact_mod_cast cdfFrom_mono img i0 h
  exact satUint8_mono (cvRound_mono (mul_le_mul_of_nonneg_left hcdf hscale))

/-- C1 counterexample: at a pixel where both 8-bit inputs are 200, the code's
water value is 255/2 (the `cv2.add` sum saturated at 255), not the claimed
(200+200)/2 = 200; and at a pixel with in-phase 0 and out-phase 10, the code's
fat value is 0 (the `cv2.subtract` difference saturated at 0), not the claimed
negative (0-10)/2 = -5. -/
theorem C1_sep_counterexample :
    dixon_algorithm ⟨1, 1, [200]⟩ ⟨1, 1, [200]⟩ = .ok (⟨1, 1, [(255 : ℚ)/2]⟩, ⟨1, 1, [0]⟩) ∧
    ((255 : ℚ)/2 ≠ ((200 : ℚ) + 200) / 2) ∧
    dixon_algorithm ⟨1, 1, [0]⟩ ⟨1, 1, [10]⟩ = .ok (⟨1, 1, [(5 : ℚ)]⟩, ⟨1, 1, [(0 : ℚ)]⟩) ∧
    ((0 : ℚ) ≠ ((0 : ℚ) - 10) / 2) := by
  refine ⟨?_, by norm_num, ?_, by norm_num⟩
  · rw [dixon_eq_ok ⟨1, 1, [200]⟩ ⟨1, 1, [200]⟩ rfl rfl]
    norm_num [imageDiv2, satUint8, min_def, max_def]
  · rw [dixon_eq_ok ⟨1, 1, [0]⟩ ⟨1, 1, [10]⟩ rfl rfl]
    norm_num [imageDiv2, satUint8, min_def, max_def]

/-- C1 (amended): for same-shaped 8-bit images the separator computes, at every
pixel, `water = satUint8 (in + out) / 2` and `fat = satUint8 (in - out) / 2`:
the sum saturates at 255 and the difference at 0 before the division by 2, so
the separator does clamp and the fat channel is never negative. -/
theorem C1_sep_saturating (a b : Image ℤ)
    (hh : a.height = b.height) (hw : a.width = b.width)
    (hlen : a.data.length = b.data.length)
    (ha : ∀ v ∈ a.data, 0 ≤ v ∧ v ≤ 255) (hb : ∀ v ∈ b.data, 0 ≤ v ∧ v ≤ 255) :
    ∃ w f, dixon_algorithm a b = .ok (w, f) ∧
      w.height = a.height ∧ w.width = a.width ∧
      f.height = a.height ∧ f.width = a.width ∧
      w.data.length = a.data.length ∧ f.data.length = a.data.length ∧
      ∀ i, i < a.data.length →
        w.data.getD i 0 = (satUint8 (a.data.getD i 0 + b.data.getD i 0) : ℚ) / 2 ∧
        f.data.getD i 0 = (satUint8 (a.data.getD i 0 - b.data.getD i 0) : ℚ) / 2 ∧
        0 ≤ f.data.getD i 0 := by
  refine ⟨_, _, dixon_eq_ok a b hh hw, rfl, rfl, rfl, rfl, ?_, ?_, ?_⟩
  · simp only [imageDiv2, List.length_map, List.length_zipWith]
    omega
  · simp only [imageDiv2, List.length_map, List.length_zipWith]
    omega
  · intro i hi
    have hi' : i < b.data.length := hlen ▸ hi
    simp only [imageDiv2]
    refine ⟨getD_map_zipWith _ _ _ _ _ hi hi', getD_map_zipWith _ _ _ _ _ hi hi', ?_⟩
    rw [getD_map_zipWith _ _ _ _ _ hi hi']
    have h0 : (0 : ℚ) ≤ (satUint8 (a.data.getD i 0 - b.data.getD i 0) : ℚ) := by
      exact_mod_cast satUint8_nonneg _
    linarith

/-- C1 witness: instantiating the amended claim at a concrete pair. -/
theorem C1_sep_saturating_witness :
    ∃ w f, dixon_algorithm ⟨1, 1, [200]⟩ ⟨1, 1, [100]⟩ = .ok (w, f) ∧
      w.height = 1 ∧ w.width = 1 ∧ f.height = 1 ∧ f.width = 1 ∧
      w.data.length = 1 ∧ f.data.length = 1 ∧
      ∀ i, i < ([(200 : ℤ)] : List ℤ).length →
        w.data.getD i 0 = (satUint8 (([(200 : ℤ)].getD i 0) + ([(100 : ℤ)].getD i 0)) : ℚ) / 2 ∧
        f.data.getD i 0 = (satUint8 (([(200 : ℤ)].getD i 0) - ([(100 : ℤ)].getD i 0)) : ℚ) / 2 ∧
        0 ≤ f.data.getD i 0 :=
  C1_sep_saturating ⟨1, 1, [200]⟩ ⟨1, 1, [100]⟩ rfl rfl rfl (by decide) (by decide)

/-- C2: when no saturation occurs (pixelwise `0 ≤ out ≤ in` and
`in + out ≤ 255`), the separation round-trips exactly in `ℚ`:
`water + fat = in_phase` and `water - fat = out_phase` at every pixel. -/
theorem C2_round_trip (a b : Image ℤ)
    (hh : a.height = b.height) (hw : a.width = b.width)
    (hlen : a.data.length = b.data.length)
    (hpix : ∀ i, i < a.data.length →
      0 ≤ b.data.getD i 0 ∧ b.data.getD i 0 ≤ a.data.getD i 0 ∧
      a.data.getD i 0 + b.data.getD i 0 ≤ 255) :
    ∃ w f, dixon_algorithm a b = .ok (w, f) ∧
      ∀ i, i < a.data.length →
        w.data.getD i 0 + f.data.getD i 0 = ((a.data.getD i 0 : ℤ) : ℚ) ∧
        w.data.getD i 0 - f.data.getD i 0 = ((b.data.getD i 0 : ℤ) : ℚ) := by
  refine ⟨_, _, dixon_eq_ok a b hh hw, ?_⟩
  intro i hi
  have hi' : i < b.data.length := hlen ▸ hi
  obtain ⟨hy0, hyx, hs⟩ := hpix i hi
  simp only [imageDiv2]
  rw [getD_map_zipWith _ _ _ _ _ hi hi', getD_map_zipWith _ _ _ _ _ hi hi']
  rw [satUint8_eq_self (by linarith) hs, satUint8_eq_self (by linarith) (by linarith)]
  push_cast
  constructor <;> ring

/-- C2 witness: round-trip at a concrete unsaturated pair. -/
theorem C2_round_trip_witness :
    ∃ w f, dixon_algorithm ⟨1, 2, [100, 50]⟩ ⟨1, 2, [60, 50]⟩ = .ok (w, f) ∧
      ∀ i, i < ([(100 : ℤ), 50] : List ℤ).length →
        w.data.getD i 0 + f.data.getD i 0 = (([(100 : ℤ), 50].getD i 0 : ℤ) : ℚ) ∧
        w.data.getD i 0 - f.data.getD i 0 = (([(60 : ℤ), 50].getD i 0 : ℤ) : ℚ) :=
  C2_round_trip ⟨1, 2, [100, 50]⟩ ⟨1, 2, [60, 50]⟩ rfl rfl rfl (by decide)

/-- C3: when the input shapes differ, the separator fails with the
dimension-mismatch error before touching any pixel data: `cv2.add` checks
the shapes first and the error propagates to the caller. -/
theorem C3_dimension_mismatch (a b : Image ℤ)
    (h : ¬(a.height = b.height ∧ a.width = b.width)) :
    dixon_algorithm a b = .error .dimensionMismatch := by
  simp only [dixon_algorithm, cv2_add, if_neg h]
  rfl

/-- C3 witness: a 10×10 image against a 10×12 image yields the
dimension-mismatch error. -/
theorem C3_dimension_mismatch_witness :
    dixon_algorithm ⟨10, 10, List.replicate 100 0⟩ ⟨10, 12, List.replicate 120 0⟩ =
      .error .dimensionMismatch :=
  C3_dimension_mismatch _ _ (by decide)

/-- C4: the code has no constant-image policy.  On a 2×2 image with every
sample 5 the normalization computes `(5-5)/(5-5) = 0/0` — IEEE NaN, whose
uint8 cast is platform-undefined — so it has no well-defined result
(`none`), rather than returning the specified all-zero image. -/
theorem C4_constant_image_undefined :
    min_max_normalization ⟨2, 2, List.replicate 4 (5 : ℚ)⟩ = none :=
  normalize_constant_none 2 2 5 3

/-- C5 counterexample: on the 1×3 image `[0, 1, 2]` the code produces the
middle pixel `⌊(1-0)/(2-0)*255⌋ = ⌊127.5⌋ = 127` (the uint8 cast
truncates), while the claimed formula `round((v-min)/(max-min)*255)`
clamped to [0, 255] gives 128. -/
theorem C5_rounding_counterexample :
    min_max_normalization ⟨1, 3, [0, 1, 2]⟩ = some ⟨1, 3, [0, 127, 255]⟩ ∧
    min 255 (max 0 (round (((1 : ℚ) - 0) / ((2 : ℚ) - 0) * 255))) = 128 ∧
    (127 : ℤ) ≠ 128 := by
  refine ⟨?_, ?_, by decide⟩
  · rw [min_max_normalization_spec ⟨1, 3, [0, 1, 2]⟩ 0 2
      (by norm_num [listMin, min_def]) (by norm_num [listMax, max_def]) (by norm_num)]
    norm_num [Int.floor_eq_iff]
  · rw [round_eq]
    norm_num [Int.floor_eq_iff]

/-- C5 (amended): for a nonempty non-constant image, normalization maps every
sample `v` to `⌊(v - min)/(max - min) * 255⌋` (the `astype(np.uint8)` cast
truncates — it does not round), every output sample lies in the 8-bit range
[0, 255], and the output attains the extremes: its minimum is 0 and its
maximum is 255. -/
theorem C5_normalize_range (img : Image ℚ) (mn mx : ℚ)
    (hmn : listMin img.data = some mn) (hmx : listMax img.data = some mx)
    (hne : mx ≠ mn) :
    ∃ out, min_max_normalization img = some out ∧
      out.height = img.height ∧ out.width = img.width ∧
      out.data = img.data.map (fun v => ⌊(v - mn) / (mx - mn) * 255⌋) ∧
      (∀ y ∈ out.data, 0 ≤ y ∧ y ≤ 255) ∧
      listMin out.data = some 0 ∧ listMax out.data = some 255 := by
  refine ⟨_, min_max_normalization_spec img mn mx hmn hmx hne, rfl, rfl, rfl,
    normalize_out_nonneg img mn mx hmn hmx,
    normalize_out_min img mn mx hmn hmx hne,
    normalize_out_max img mn mx hmn hmx hne⟩

/-- C5 witness: the amended claim at the concrete image `[0, 1, 2]`. -/
theorem C5_normalize_range_witness :
    ∃ out, min_max_normalization ⟨1, 3, [0, 1, 2]⟩ = some out ∧
      out.height = 1 ∧ out.width = 3 ∧
      out.data = ([0, 1, 2] : List ℚ).map (fun v => ⌊(v - 0) / (2 - 0) * 255⌋) ∧
      (∀ y ∈ out.data, 0 ≤ y ∧ y ≤ 255) ∧
      listMin out.data = some 0 ∧ listMax out.data = some 255 :=
  C5_normalize_range ⟨1, 3, [0, 1, 2]⟩ 0 2
    (by norm_num [listMin, min_def]) (by norm_num [listMax, max_def]) (by norm_num)

/-- C6: normalization is idempotent on already-normalized input: whenever
`min_max_normalization` succeeds on an image, running it again on its own
output (viewed as floats) reproduces that output pixel for pixel. -/
theorem C6_normalize_idempotent (img : Image ℚ) (out : Image ℤ)
    (h : min_max_normalization img = some out) :
    min_max_normalization (Image.toRat out) = some out := by
  rcases hmn' : listMin img.data with _ | mn
  · simp [min_max_normalization, hmn'] at h
  rcases hmx' : listMax img.data with _ | mx
  · simp [min_max_normalization, hmn', hmx'] at h
  by_cases hne : mx = mn
  · simp [min_max_normalization, hmn', hmx', if_pos hne] at h
  rw [min_max_normalization_spec img mn mx hmn' hmx' hne] at h
  obtain rfl : (⟨img.height, img.width,
      img.data.map (fun v => ⌊(v - mn) / (mx - mn) * 255⌋)⟩ : Image ℤ) = out :=
    Option.some.injEq _ _ ▸ h
  have hmin2 := normalize_out_min img mn mx hmn' hmx' hne
  have hmax2 := normalize_out_max img mn mx hmn' hmx' hne
  rw [min_max_normalization_spec (Image.toRat _) ((0 : ℤ) : ℚ) ((255 : ℤ) : ℚ)
    (listMin_map_cast hmin2) (listMax_map_cast hmax2) (by norm_num)]
  simp only [Image.toRat, Option.some.injEq, List.map_map]
  refine congrArg _ ?_
  refine List.map_congr_left ?_
  intro v _
  simp only [Function.comp_apply]
  push_cast
  rw [sub_zero, sub_zero, div_mul_cancel₀ _ (by norm_num : (255 : ℚ) ≠ 0)]
  exact Int.floor_intCast _

/-- C6 witness: idempotence at the concrete image `[0, 1, 2]`, whose
normalization is `[0, 127, 255]`. -/
theorem C6_normalize_idempotent_witness :
    min_max_normalization (Image.toRat ⟨1, 3, [0, 127, 255]⟩) =
      some ⟨1, 3, [0, 127, 255]⟩ :=
  C6_normalize_idempotent ⟨1, 3, [0, 1, 2]⟩ ⟨1, 3, [0, 127, 255]⟩ (by
    rw [min_max_normalization_spec ⟨1, 3, [0, 1, 2]⟩ 0 2
      (by norm_num [listMin, min_def]) (by norm_num [listMax, max_def]) (by norm_num)]
    norm_num [Int.floor_eq_iff])

/-- C7: `cv2.equalizeHist` preserves the rank order of pixel intensities:
whenever `x[i] < x[j]`, the equalized values satisfy
`enhanced[i] ≤ enhanced[j]` (the lookup table is monotone), and equal
outputs on those unequal inputs happen exactly when the lookup table maps
the two source intensities to the same value. -/
theorem C7_equalize_rank (img : Image ℤ) (i j : ℕ)
    (hi : i < img.data.length) (hj : j < img.data.length)
    (hrange : ∀ v ∈ img.data, 0 ≤ v ∧ v ≤ 255)
    (hlt : img.data.getD i 0 < img.data.getD j 0) :
    (equalizeHist img).data.getD i 0 ≤ (equalizeHist img).data.getD j 0 ∧
    ((equalizeHist img).data.getD i 0 = (equalizeHist img).data.getD j 0 →
      lutOf img (img.data.getD i 0) = lutOf img (img.data.getD j 0)) := by
  rw [equalizeHist_data, getD_map_int _ _ _ hi, getD_map_int _ _ _ hj]
  refine ⟨?_, fun h => h⟩
  unfold lutOf
  rcases hfb : firstNonzeroBin img with _ | i0
  · exact le_of_lt hlt
  · simp only
    split_ifs with hc
    · exact le_refl _
    · exact equalizeLut_mono img i0
        (lt_of_le_of_ne (List.count_le_length _ _) hc) (le_of_lt hlt)

/-- C7 witness: rank preservation on the concrete image `[0, 1, 1]`. -/
theorem C7_equalize_rank_witness :
    ((equalizeHist ⟨1, 3, [0, 1, 1]⟩).data.getD 0 0 ≤
      (equalizeHist ⟨1, 3, [0, 1, 1]⟩).data.getD 1 0) ∧
    ((equalizeHist ⟨1, 3, [0, 1, 1]⟩).data.getD 0 0 =
        (equalizeHist ⟨1, 3, [0, 1, 1]⟩).data.getD 1 0 →
      lutOf ⟨1, 3, [0, 1, 1]⟩ (([(0 : ℤ), 1, 1]).getD 0 0) =
        lutOf ⟨1, 3, [0, 1, 1]⟩ (([(0 : ℤ), 1, 1]).getD 1 0)) :=
  C7_equalize_rank ⟨1, 3, [0, 1, 1]⟩ 0 1 (by decide) (by decide) (by decide) (by decide)

/-- C8: on the 4×4 constant pair (all 100, all 50) the separation yields
water 75 and fat 25 everywhere (no saturation occurs), but enhancing these
constant images has no defined result: `min_max_normalization` hits the
0/0 → NaN path, so the pipeline never produces the claimed all-zero
images. -/
theorem C8_constant_pair :
    dixon_algorithm ⟨4, 4, List.replicate 16 100⟩ ⟨4, 4, List.replicate 16 50⟩ =
      .ok (⟨4, 4, List.replicate 16 ((75 : ℚ))⟩, ⟨4, 4, List.replicate 16 ((25 : ℚ))⟩) ∧
    enhance_images ⟨4, 4, List.replicate 16 (75 : ℚ)⟩ ⟨4, 4, List.replicate 16 (25 : ℚ)⟩ =
      (none, none) := by
  constructor
  · rw [dixon_eq_ok ⟨4, 4, List.replicate 16 100⟩ ⟨4, 4, List.replicate 16 50⟩ rfl rfl]
    simp only [imageDiv2, List.zipWith_replicate', List.map_replicate]
    norm_num [satUint8, min_def, max_def]
  · have h75 : min_max_normalization ⟨4, 4, List.replicate 16 (75 : ℚ)⟩ = none :=
      normalize_constant_none 4 4 75 15
    have h25 : min_max_normalization ⟨4, 4, List.replicate 16 (25 : ℚ)⟩ = none :=
      normalize_constant_none 4 4 25 15
    simp only [enhance_images, enhance_image, h75, h25, Option.map_none']

/-- C9: for same-shaped 8-bit inputs, every sample of both separator outputs
lies in [0, 255/2]: the pixelwise sum saturates at 255 and the difference at 0
before the division by 2, so in particular the fat output is never negative. -/
theorem C9_output_bounds (a b : Image ℤ)
    (hh : a.height = b.height) (hw : a.width = b.width)
    (ha : ∀ v ∈ a.data, 0 ≤ v ∧ v ≤ 255) (hb : ∀ v ∈ b.data, 0 ≤ v ∧ v ≤ 255) :
    ∃ w f, dixon_algorithm a b = .ok (w, f) ∧
      (∀ q ∈ w.data, 0 ≤ q ∧ q ≤ 255/2) ∧
      (∀ q ∈ f.data, 0 ≤ q ∧ q ≤ 255/2) := by
  refine ⟨_, _, dixon_eq_ok a b hh hw, ?_, ?_⟩ <;>
  · intro q hq
    simp only [imageDiv2] at hq
    obtain ⟨n, hn, rfl⟩ := List.mem_map.mp hq
    obtain ⟨h0, h255⟩ := mem_zipWith_satUint8 _ _ _ hn
    have h0' : (0 : ℚ) ≤ (n : ℚ) := by exact_mod_cast h0
    have h255' : (n : ℚ) ≤ 255 := by exact_mod_cast h255
    constructor <;> linarith

/-- C9 witness: bounds at a concrete saturating pair. -/
theorem C9_output_bounds_witness :
    ∃ w f, dixon_algorithm ⟨1, 1, [200]⟩ ⟨1, 1, [200]⟩ = .ok (w, f) ∧
      (∀ q ∈ w.data, 0 ≤ q ∧ q ≤ 255/2) ∧
      (∀ q ∈ f.data, 0 ≤ q ∧ q ≤ 255/2) :=
  C9_output_bounds ⟨1, 1, [200]⟩ ⟨1, 1, [200]⟩ rfl rfl (by decide) (by decide)
/-- C10: `read_dicom_files` is all-or-nothing — its result is either
`(none, none)` or a pair of `some`s, never exactly one `none` — and when
either slot is `none`, `main` returns immediately with no pipeline stage
run. -/
theorem C10_read_all_or_nothing (blur : Image ℤ → Image ℤ)
    (r1 r2 : Option (Image ℤ)) :
    (read_dicom_files r1 r2 = (none, none) ∨
      ∃ a b, read_dicom_files r1 r2 = (some a, some b)) ∧
    ((read_dicom_files r1 r2).1 = none ∨ (read_dicom_files r1 r2).2 = none →
      main_pipeline blur r1 r2 = none) := by
  cases r1 <;> cases r2 <;> simp [read_dicom_files, main_pipeline]

/-- C10 witness: a failed in-phase read with a successful out-phase read
still yields `(none, none)` and an immediate return from `main`. -/
theorem C10_read_all_or_nothing_witness :
    (read_dicom_files none (some ⟨1, 1, [0]⟩) = (none, none) ∨
      ∃ a b, read_dicom_files none (some ⟨1, 1, [0]⟩) = (some a, some b)) ∧
    main_pipeline id none (some ⟨1, 1, [0]⟩) = none :=
  ⟨(C10_read_all_or_nothing id none (some ⟨1, 1, [0]⟩)).1,
   (C10_read_all_or_nothing id none (some ⟨1, 1, [0]⟩)).2 (Or.inl rfl)⟩


end FWS
